import Mathlib

set_option maxHeartbeats 1000000

/-! # Verification of the scaleway-cli identifier-resolution cache

Shallow embedding of `cache.go`: the `ScalewayCache` data model, the
prefix/fuzzy lookup functions, the per-category mutators, `Save` and
`NewScalewayCache`.  Strings are modelled as lists of characters (Go ranges
over the cache maps and over strings; map iteration order is modelled by the
association-list order).  The `sync.Mutex` field serialises every operation
and is not modelled; each public operation is a pure function on the state.
-/

/-- Strings are modelled as lists of characters. -/
abbrev Str := List Char

/-- Conversion from a Lean string literal to the character-list model. -/
def str (s : String) : Str := s.data

/-- Case-insensitive character comparison, modelling the `(?i)` regexp flag.
Folding is modelled with `Char.toLower` (ASCII); every concrete input in this
file is ASCII, where this agrees with Go's case folding. -/
def ciEq (a b : Char) : Bool := a.toLower == b.toLower

/-- The wildcard separators of the fuzzy-needle language: the characters the
lookup functions replace by `.*` (regexp `[_-]`, cache.go line 132). -/
def isSep (c : Char) : Bool := c == '_' || c == '-'

/-- Characters with a special meaning in Go regular expression syntax. -/
def isMeta (c : Char) : Bool :=
  c == '.' || c == '*' || c == '+' || c == '?' || c == '(' || c == ')' ||
  c == '|' || c == '[' || c == ']' || c == '\x7b' || c == '\x7d' ||
  c == '^' || c == '$' || c == '\\'

/-- A needle none of whose characters is a regexp metacharacter.  On such
needles the pattern built by the lookup functions is a plain alternation of
literal runs and `.*` gaps. -/
def SafeNeedle (n : Str) : Bool := n.all (fun c => !isMeta c)

/-- Accumulator-based splitting of a needle into its maximal runs of
non-separator characters (the runs the spec says must appear in order). -/
def tokensOfAux : Str → Str → List Str
  | [], acc => if acc == [] then [] else [acc.reverse]
  | c :: s, acc =>
    if isSep c then
      (if acc == [] then tokensOfAux s [] else acc.reverse :: tokensOfAux s [])
    else tokensOfAux s (c :: acc)

/-- The maximal runs of non-separator characters of a needle. -/
def tokensOf (s : Str) : List Str := tokensOfAux s []

/-- All ways to split a string into a prefix/suffix pair. -/
def splits : Str → List (Str × Str)
  | [] => [([], [])]
  | x :: xs => ([], x :: xs) :: (splits xs).map (fun p => (x :: p.1, p.2))

/-- Case-insensitive equality of strings of equal length. -/
def ciStrEq : Str → Str → Bool
  | [], [] => true
  | a :: s, b :: t => ciEq a b && ciStrEq s t
  | _, _ => false

/-- Case-insensitive "is a prefix of" test. -/
def ciPrefixB : Str → Str → Bool
  | [], _ => true
  | _ :: _, [] => false
  | a :: t, b :: s => ciEq a b && ciPrefixB t s

/-- Spec-side matcher, following the spec's words: after the position reached
so far, characters allowed by the gap predicate `g` may be skipped, then the
next maximal run must occur (case-insensitively), and so on for every run. -/
def fuzzyGapB (g : Char → Bool) : List Str → Str → Bool
  | [], _ => true
  | t :: ts, s =>
    (splits s).any fun p => p.1.all g && ciPrefixB t p.2 && fuzzyGapB g ts (p.2.drop t.length)

/-- Spec-side matcher, following the spec's words: each maximal run of the
needle appears in order in the name; the text before the first run is
unrestricted, and between consecutive runs only characters allowed by `g` may
occur. -/
def fuzzyRunsB (g : Char → Bool) (ts : List Str) (s : Str) : Bool :=
  match ts with
  | [] => true
  | t :: ts => (splits s).any fun p => ciPrefixB t p.2 && fuzzyGapB g ts (p.2.drop t.length)

/-- Spec-side fuzzy predicate on a needle and a name: the needle's maximal
runs of non-separator characters appear in order in the name, with text
allowed by `g` permitted between them. -/
def specFuzzy (g : Char → Bool) (needle name : Str) : Bool :=
  fuzzyRunsB g (tokensOf needle) name

/-- Gap predicate allowing arbitrary text (the claim's wording). -/
def anyChar (_ : Char) : Bool := true

/-- Gap predicate of Go's `.*`: any character except newline. -/
def noNl (c : Char) : Bool := c != '\n'

/-- A single-character regexp atom: a literal character or `.` (dot). -/
inductive SAtom
  | lit (c : Char)
  | dot
deriving DecidableEq, Repr

/-- An element of a compiled pattern: an atom matched once, or starred. -/
inductive Atom
  | once (a : SAtom)
  | star (a : SAtom)
deriving DecidableEq, Repr

/-- Atom semantics: literals compare case-insensitively (the pattern carries
the `(?i)` flag), and `.` matches any character except newline. -/
def atomMatch : SAtom → Char → Bool
  | .lit c, x => ciEq c x
  | .dot, x => x != '\n'

/-- Model of compiling `(?i)` + the needle with every `_`/`-` replaced by
`.*` (cache.go lines 130-132).  Case-insensitivity lives in `atomMatch`.
`none` models a `regexp.MustCompile` panic on an invalid pattern (for
instance a lone `(`).  Go regexp constructs other than literal characters,
`.` and `*` are outside this model and are conservatively mapped to `none`;
every theorem below applies the compiler only where the model agrees with
Go's regexp engine. -/
def compileAux : Str → List Atom → Option (List Atom)
  | [], acc => some acc.reverse
  | c :: cs, acc =>
    if isSep c then compileAux cs (.star .dot :: acc)
    else if c == '.' then compileAux cs (.once .dot :: acc)
    else if c == '*' then
      match acc with
      | .once a :: rest => compileAux cs (.star a :: rest)
      | _ => none
    else if isMeta c then none
    else compileAux cs (.once (.lit c) :: acc)

/-- Compile a needle into a pattern, `none` modelling a compile panic. -/
def compileNeedle (needle : Str) : Option (List Atom) := compileAux needle []

/-- The atom a single safe needle character compiles to. -/
def charAtom (c : Char) : Atom := if isSep c then .star .dot else .once (.lit c)

/-- Does the pattern match the empty string? -/
def nullable : List Atom → Bool
  | [] => true
  | .once _ :: _ => false
  | .star _ :: ps => nullable ps

/-- One character step of the backtracking matcher: `next ps` decides whether
the remaining pattern `ps` matches a prefix of the rest of the string. -/
def matchStep (next : List Atom → Bool) (x : Char) : List Atom → Bool
  | [] => true
  | .once a :: ps => atomMatch a x && next ps
  | .star a :: ps => matchStep next x ps || (atomMatch a x && next (.star a :: ps))

/-- Does the pattern match some prefix of the string? -/
def matchH : Str → List Atom → Bool
  | [], ps => nullable ps
  | x :: xs, ps => matchStep (matchH xs) x ps

/-- Model of Go's `Regexp.MatchString`: the pattern matches somewhere in the
string (at some start position, for some length). -/
def matchAnywhere (ps : List Atom) : Str → Bool
  | [] => nullable ps
  | x :: xs => matchH (x :: xs) ps || matchAnywhere ps xs

/-- Exact-match semantics of a compiled pattern against a whole string. -/
inductive PMatch : List Atom → Str → Prop
  | nil : PMatch [] []
  | once {a x ps xs} : atomMatch a x = true → PMatch ps xs →
      PMatch (.once a :: ps) (x :: xs)
  | starSkip {a ps xs} : PMatch ps xs → PMatch (.star a :: ps) xs
  | starCons {a x ps xs} : atomMatch a x = true → PMatch (.star a :: ps) xs →
      PMatch (.star a :: ps) (x :: xs)

/-- Declarative semantics of the pattern of a needle, by recursion on the
needle: a separator consumes a newline-free block, any other character
consumes one case-insensitively equal character. -/
def AProp : Str → Str → Prop
  | [], mid => mid = []
  | c :: n, mid =>
    if isSep c then
      ∃ g rest, mid = g ++ rest ∧ (∀ x ∈ g, noNl x = true) ∧ AProp n rest
    else
      ∃ x rest, mid = x :: rest ∧ ciEq c x = true ∧ AProp n rest

/-- Declarative form of `fuzzyGapB`: every token occurs in order, each
preceded by a gap of characters allowed by `noNl`. -/
def GPropP : List Str → Str → Prop
  | [], _ => True
  | t :: ts, r =>
      ∃ gp m r2, r = gp ++ m ++ r2 ∧ (∀ x ∈ gp, noNl x = true) ∧
        ciStrEq t m = true ∧ GPropP ts r2

/-- Declarative form of `fuzzyRunsB`: the first token occurs after arbitrary
text, the later ones after newline-free gaps. -/
def RPropP : List Str → Str → Prop
  | [], _ => True
  | t :: ts, s =>
      ∃ pre m r2, s = pre ++ m ++ r2 ∧ ciStrEq t m = true ∧ GPropP ts r2

/-- The gap-mode side of the needle/token correspondence: a newline-free gap,
then a block satisfying the needle's declarative semantics, then anything. -/
def GapSide (n r : Str) : Prop :=
  ∃ gp m post, r = gp ++ m ++ post ∧ (∀ x ∈ gp, noNl x = true) ∧ AProp n m

/-- The top-level side of the needle/token correspondence: an unrestricted
prefix, then a block satisfying the needle's declarative semantics, then
anything. -/
def TopSide (n s : Str) : Prop :=
  ∃ pre mid post, s = pre ++ mid ++ post ∧ AProp n mid

/-! ## The cache data model (cache.go lines 13-55) -/

/-- The cache structure.  The four collections are the JSON-serialised maps
from identifier to display name; Go map iteration is modelled by the list
order.  `Path` and `Modified` carry the `json:"-"` metadata fields; the
`sync.Mutex` lock is not modelled (all operations are serialised). -/
structure ScalewayCache where
  Images : List (Str × Str)
  Snapshots : List (Str × Str)
  Bootscripts : List (Str × Str)
  Servers : List (Str × Str)
  Path : Str
  Modified : Bool
deriving DecidableEq, Repr

/-- Go map read `m[k]`: the value and whether the key exists. -/
def assocGet : List (Str × Str) → Str → Option Str
  | [], _ => none
  | e :: l, k => if e.1 == k then some e.2 else assocGet l k

/-- Go map write `m[k] = v`: replace the stored value or add the entry. -/
def assocSet : List (Str × Str) → Str → Str → List (Str × Str)
  | [], k, v => [(k, v)]
  | e :: l, k, v => if e.1 == k then (k, v) :: l else e :: assocSet l k v

/-- Go `delete(m, k)`. -/
def assocDel : List (Str × Str) → Str → List (Str × Str)
  | [], _ => []
  | e :: l, k => if e.1 == k then l else e :: assocDel l k

/-- The type keys of cached objects (`iota` constants, cache.go 37-46). -/
def IdentifierServer : Nat := 0

/-- Type key of cached image objects. -/
def IdentifierImage : Nat := 1

/-- Type key of cached snapshot objects. -/
def IdentifierSnapshot : Nat := 2

/-- Type key of cached bootscript objects. -/
def IdentifierBootscript : Nat := 3

/-- A unique identifier together with its category type key (the Go struct's
`Type` field is named `Ty` here, `Type` being reserved in Lean). -/
structure ScalewayIdentifier where
  Identifier : Str
  Ty : Nat
deriving DecidableEq, Repr

/-! ## Construction and load (cache.go lines 57-102) -/

/-- Decoded form of the on-disk JSON document: each of the four top-level
fields is `none` when absent or null (a nil Go map after `json.Unmarshal`). -/
structure CacheFile where
  images : Option (List (Str × Str))
  snapshots : Option (List (Str × Str))
  bootscripts : Option (List (Str × Str))
  servers : Option (List (Str × Str))
deriving DecidableEq, Repr

/-- Outcome of the filesystem interactions of `NewScalewayCache`: no file at
the path, a `Stat` failure other than not-exists, a `ReadFile` failure, a
file whose bytes fail to decode, or a file decoding to a `CacheFile`. -/
inductive FileState
  | absent
  | statErr
  | readErr
  | badContent
  | content (d : CacheFile)
deriving DecidableEq, Repr

/-- The error classes `NewScalewayCache` can propagate. -/
inductive CacheErr
  | ioErr
  | decodeErr
deriving DecidableEq, Repr

/-- Home-directory resolution (cache.go lines 59-66): `$HOME`, else
`$USERPROFILE`, else `/tmp`, then join with `.scw-cache.db` (path joining
modelled as concatenation with a separator). -/
def resolveCachePath (home userprofile : Str) : Str :=
  (if home ≠ [] then home
   else if userprofile ≠ [] then userprofile
   else str "/tmp") ++ str "/.scw-cache.db"

/-- `NewScalewayCache` (cache.go lines 57-102) over an abstract file state:
a missing file yields a fresh empty cache, `Stat`/`ReadFile` failures and
decode failures are propagated, and any collection that decoded to nil is
replaced by an empty map. -/
def NewScalewayCache (home userprofile : Str) (fs : FileState) :
    Except CacheErr ScalewayCache :=
  let cachePath := resolveCachePath home userprofile
  match fs with
  | .absent =>
      .ok { Images := [], Snapshots := [], Bootscripts := [], Servers := [],
            Path := cachePath, Modified := false }
  | .statErr => .error .ioErr
  | .readErr => .error .ioErr
  | .badContent => .error .decodeErr
  | .content d =>
      .ok { Images := d.images.getD [], Snapshots := d.snapshots.getD [],
            Bootscripts := d.bootscripts.getD [], Servers := d.servers.getD [],
            Path := cachePath, Modified := false }

/-! ## Save (cache.go lines 104-122) -/

/-- Outcome of the filesystem interactions of `Save`: temp-file creation
failure, encode failure, rename failure, or success. -/
inductive SaveEnv
  | tempFail
  | encodeFail
  | renameFail
  | allOk
deriving DecidableEq, Repr

/-- `Save` (cache.go lines 104-122): a no-op unless `Modified`; otherwise
encode to a temp file and rename it over `Path`, propagating any failure.
The in-memory structure is never written to, so it is returned unchanged. -/
def Save (c : ScalewayCache) (env : SaveEnv) : ScalewayCache × Except CacheErr Unit :=
  if c.Modified then
    match env with
    | .tempFail => (c, .error .ioErr)
    | .encodeFail => (c, .error .ioErr)
    | .renameFail => (c, .error .ioErr)
    | .allOk => (c, .ok ())
  else (c, .ok ())

/-! ## Lookups (cache.go lines 124-220) -/

/-- One `^user/` prefix stripped from the needle (the
`regexp.MustCompile("^user/").ReplaceAllString(needle, "")` of lines 130 and
147: the anchored pattern matches at most once). -/
def stripUser (n : Str) : Str :=
  if (str "user/").isPrefixOf n then n.drop 5 else n

/-- `LookUpImages` (cache.go lines 124-139): strip `user/`, build the fuzzy
regexp, and keep every identifier that has the needle as a literal prefix or
whose name matches the regexp.  `none` models the `MustCompile` panic. -/
def LookUpImages (c : ScalewayCache) (needle : Str) : Option (List Str) :=
  match compileNeedle (stripUser needle) with
  | none => none
  | some ps =>
      some (((c.Images).filter fun e =>
        (stripUser needle).isPrefixOf e.1 || matchAnywhere ps e.2).map Prod.fst)

/-- `LookUpSnapshots` (cache.go lines 141-155): same as `LookUpImages` over
the snapshots collection. -/
def LookUpSnapshots (c : ScalewayCache) (needle : Str) : Option (List Str) :=
  match compileNeedle (stripUser needle) with
  | none => none
  | some ps =>
      some (((c.Snapshots).filter fun e =>
        (stripUser needle).isPrefixOf e.1 || matchAnywhere ps e.2).map Prod.fst)

/-- `LookUpBootscripts` (cache.go lines 157-170): no `user/` stripping. -/
def LookUpBootscripts (c : ScalewayCache) (needle : Str) : Option (List Str) :=
  match compileNeedle needle with
  | none => none
  | some ps =>
      some (((c.Bootscripts).filter fun e => needle.isPrefixOf e.1 || matchAnywhere ps e.2).map Prod.fst)

/-- `LookUpServers` (cache.go lines 172-185): no `user/` stripping. -/
def LookUpServers (c : ScalewayCache) (needle : Str) : Option (List Str) :=
  match compileNeedle needle with
  | none => none
  | some ps =>
      some (((c.Servers).filter fun e => needle.isPrefixOf e.1 || matchAnywhere ps e.2).map Prod.fst)

/-- `LookUpIdentifiers` (cache.go lines 187-220): concatenate the four
single-category lookups, tagging each identifier with its type key.  A panic
in any single-category lookup propagates. -/
def LookUpIdentifiers (c : ScalewayCache) (needle : Str) :
    Option (List ScalewayIdentifier) := do
  let ls ← LookUpServers c needle
  let li ← LookUpImages c needle
  let ln ← LookUpSnapshots c needle
  let lb ← LookUpBootscripts c needle
  return (ls.map fun i => { Identifier := i, Ty := IdentifierServer }) ++
    (li.map fun i => { Identifier := i, Ty := IdentifierImage }) ++
    (ln.map fun i => { Identifier := i, Ty := IdentifierSnapshot }) ++
    (lb.map fun i => { Identifier := i, Ty := IdentifierBootscript })

/-! ## Mutators (cache.go lines 222-340) -/

/-- `InsertServer` (lines 222-232): write and mark dirty unless the stored
name already equals the new one. -/
def InsertServer (c : ScalewayCache) (identifier name : Str) : ScalewayCache :=
  if assocGet c.Servers identifier == some name then c
  else { c with Servers := assocSet c.Servers identifier name, Modified := true }

/-- `RemoveServer` (lines 234-241): delete and unconditionally mark dirty. -/
def RemoveServer (c : ScalewayCache) (identifier : Str) : ScalewayCache :=
  { c with Servers := assocDel c.Servers identifier, Modified := true }

/-- `ClearServers` (lines 243-250): fresh empty map, unconditionally dirty. -/
def ClearServers (c : ScalewayCache) : ScalewayCache :=
  { c with Servers := [], Modified := true }

/-- `InsertImage` (lines 252-262). -/
def InsertImage (c : ScalewayCache) (identifier name : Str) : ScalewayCache :=
  if assocGet c.Images identifier == some name then c
  else { c with Images := assocSet c.Images identifier name, Modified := true }

/-- `RemoveImage` (lines 264-271). -/
def RemoveImage (c : ScalewayCache) (identifier : Str) : ScalewayCache :=
  { c with Images := assocDel c.Images identifier, Modified := true }

/-- `ClearImages` (lines 273-280). -/
def ClearImages (c : ScalewayCache) : ScalewayCache :=
  { c with Images := [], Modified := true }

/-- `InsertSnapshot` (lines 282-292). -/
def InsertSnapshot (c : ScalewayCache) (identifier name : Str) : ScalewayCache :=
  if assocGet c.Snapshots identifier == some name then c
  else { c with Snapshots := assocSet c.Snapshots identifier name, Modified := true }

/-- `RemoveSnapshot` (lines 294-301). -/
def RemoveSnapshot (c : ScalewayCache) (identifier : Str) : ScalewayCache :=
  { c with Snapshots := assocDel c.Snapshots identifier, Modified := true }

/-- `ClearSnapshots` (lines 303-310). -/
def ClearSnapshots (c : ScalewayCache) : ScalewayCache :=
  { c with Snapshots := [], Modified := true }

/-- `InsertBootscript` (lines 312-322). -/
def InsertBootscript (c : ScalewayCache) (identifier name : Str) : ScalewayCache :=
  if assocGet c.Bootscripts identifier == some name then c
  else { c with Bootscripts := assocSet c.Bootscripts identifier name, Modified := true }

/-- `RemoveBootscript` (lines 324-331). -/
def RemoveBootscript (c : ScalewayCache) (identifier : Str) : ScalewayCache :=
  { c with Bootscripts := assocDel c.Bootscripts identifier, Modified := true }

/-- `ClearBootscripts` (lines 333-340). -/
def ClearBootscripts (c : ScalewayCache) : ScalewayCache :=
  { c with Bootscripts := [], Modified := true }

/-- A cache with all four collections empty, used in concrete instances. -/
def emptyCache : ScalewayCache :=
  { Images := [], Snapshots := [], Bootscripts := [], Servers := [],
    Path := [], Modified := false }

/-! ## Helper lemmas -/

theorem boolOfIff {a b : Bool} (h : a = true ↔ b = true) : a = b := by
  cases a <;> cases b <;> simp_all

theorem assocGet_some_mem {l : List (Str × Str)} {k v : Str}
    (h : assocGet l k = some v) : (k, v) ∈ l := by
  induction l with
  | nil => simp [assocGet] at h
  | cons e l ih =>
      by_cases hk : (e.1 == k) = true
      · simp [assocGet, hk] at h
        simp [beq_iff_eq] at hk
        cases e
        simp_all
      · simp [assocGet, hk] at h
        exact List.mem_cons_of_mem _ (ih h)

theorem assocSet_self {l : List (Str × Str)} {k v : Str}
    (h : assocGet l k = some v) : assocSet l k v = l := by
  induction l with
  | nil => simp [assocGet] at h
  | cons e l ih =>
      by_cases hk : (e.1 == k) = true
      · simp [assocGet, hk] at h
        simp [beq_iff_eq] at hk
        cases e
        simp_all [assocSet]
      · simp [assocGet, hk] at h
        simp [assocSet, hk, ih h]

theorem assocGet_assocSet {l : List (Str × Str)} {k v : Str} :
    assocGet (assocSet l k v) k = some v := by
  induction l with
  | nil => simp [assocSet, assocGet]
  | cons e l ih =>
      by_cases hk : (e.1 == k) = true
      · simp [assocSet, hk, assocGet]
      · simp [assocSet, hk, assocGet, ih]

theorem mem_assocSet_self {l : List (Str × Str)} {k v : Str} :
    (k, v) ∈ assocSet l k v := by
  induction l with
  | nil => simp [assocSet]
  | cons e l ih =>
      by_cases hk : (e.1 == k) = true
      · simp [assocSet, hk]
      · simp [assocSet, hk]
        right
        exact ih

theorem assocGet_none_not_key {l : List (Str × Str)} {k : Str}
    (h : assocGet l k = none) : ∀ e ∈ l, e.1 ≠ k := by
  induction l with
  | nil => simp
  | cons e l ih =>
      by_cases hk : (e.1 == k) = true
      · simp [assocGet, hk] at h
      · simp [assocGet, hk] at h
        intro f hf
        rw [List.mem_cons] at hf
        rcases hf with hf | hf
        · subst hf
          simpa using hk
        · exact ih h f hf

/-- `InsertImage` is idempotent: the second identical insertion is a no-op. -/
theorem insertImage_idem (c : ScalewayCache) (identifier name : Str) :
    InsertImage (InsertImage c identifier name) identifier name =
      InsertImage c identifier name := by
  unfold InsertImage
  by_cases h : (assocGet c.Images identifier == some name) = true
  · simp [h]
  · simp [h, assocGet_assocSet]

/-! ## Claim C3: construction and load -/

/-- C3: `NewScalewayCache` yields a freshly empty cache (all four collections
empty, no error) when no file exists; on a successful decode every absent or
null collection is replaced by an empty mapping; and it errors exactly on a
non-not-exists stat failure, a read failure, or a decode failure. -/
theorem newScalewayCache_load_spec (home userprofile : Str) :
    NewScalewayCache home userprofile .absent =
      .ok { Images := [], Snapshots := [], Bootscripts := [], Servers := [],
            Path := resolveCachePath home userprofile, Modified := false } ∧
    (∀ d, NewScalewayCache home userprofile (.content d) =
      .ok { Images := d.images.getD [], Snapshots := d.snapshots.getD [],
            Bootscripts := d.bootscripts.getD [], Servers := d.servers.getD [],
            Path := resolveCachePath home userprofile, Modified := false }) ∧
    (∀ fs, (∃ e, NewScalewayCache home userprofile fs = .error e) ↔
      fs = .statErr ∨ fs = .readErr ∨ fs = .badContent) := by
  refine ⟨rfl, fun d => rfl, fun fs => ?_⟩
  cases fs <;> simp [NewScalewayCache]

/-- Concrete instance of `newScalewayCache_load_spec`: a missing file gives
the empty cache. -/
theorem newScalewayCache_load_spec_witness :
    NewScalewayCache (str "/root") (str "") .absent =
      .ok { Images := [], Snapshots := [], Bootscripts := [], Servers := [],
            Path := resolveCachePath (str "/root") (str ""), Modified := false } :=
  (newScalewayCache_load_spec (str "/root") (str "")).1

/-! ## Claim C4: insert/update with change tracking -/

/-- C4: every category's Insert writes the pair through and sets the dirty
flag exactly when the identifier was absent or stored under a different name;
a second identical `InsertImage` on a cache clean before the first call
leaves the dirty flag unchanged. -/
theorem insert_dirty_spec (c : ScalewayCache) (identifier name : Str) :
    ((InsertServer c identifier name).Servers = assocSet c.Servers identifier name ∧
      (InsertServer c identifier name).Modified =
        (c.Modified || !(assocGet c.Servers identifier == some name))) ∧
    ((InsertImage c identifier name).Images = assocSet c.Images identifier name ∧
      (InsertImage c identifier name).Modified =
        (c.Modified || !(assocGet c.Images identifier == some name))) ∧
    ((InsertSnapshot c identifier name).Snapshots = assocSet c.Snapshots identifier name ∧
      (InsertSnapshot c identifier name).Modified =
        (c.Modified || !(assocGet c.Snapshots identifier == some name))) ∧
    ((InsertBootscript c identifier name).Bootscripts = assocSet c.Bootscripts identifier name ∧
      (InsertBootscript c identifier name).Modified =
        (c.Modified || !(assocGet c.Bootscripts identifier == some name))) ∧
    (c.Modified = false →
      (InsertImage (InsertImage c identifier name) identifier name).Modified =
        (InsertImage c identifier name).Modified) := by
  refine ⟨⟨?_, ?_⟩, ⟨?_, ?_⟩, ⟨?_, ?_⟩, ⟨?_, ?_⟩, fun _ => ?_⟩
  · by_cases h : (assocGet c.Servers identifier == some name) = true
    · simp only [InsertServer, h, if_true]
      exact (assocSet_self (by simpa [beq_iff_eq] using h)).symm
    · simp [InsertServer, h]
  · by_cases h : (assocGet c.Servers identifier == some name) = true
    · simp [InsertServer, h]
    · simp [InsertServer, h]
  · by_cases h : (assocGet c.Images identifier == some name) = true
    · simp only [InsertImage, h, if_true]
      exact (assocSet_self (by simpa [beq_iff_eq] using h)).symm
    · simp [InsertImage, h]
  · by_cases h : (assocGet c.Images identifier == some name) = true
    · simp [InsertImage, h]
    · simp [InsertImage, h]
  · by_cases h : (assocGet c.Snapshots identifier == some name) = true
    · simp only [InsertSnapshot, h, if_true]
      exact (assocSet_self (by simpa [beq_iff_eq] using h)).symm
    · simp [InsertSnapshot, h]
  · by_cases h : (assocGet c.Snapshots identifier == some name) = true
    · simp [InsertSnapshot, h]
    · simp [InsertSnapshot, h]
  · by_cases h : (assocGet c.Bootscripts identifier == some name) = true
    · simp only [InsertBootscript, h, if_true]
      exact (assocSet_self (by simpa [beq_iff_eq] using h)).symm
    · simp [InsertBootscript, h]
  · by_cases h : (assocGet c.Bootscripts identifier == some name) = true
    · simp [InsertBootscript, h]
    · simp [InsertBootscript, h]
  · rw [insertImage_idem]

/-- Concrete instance of `insert_dirty_spec`: a first insertion into a clean
empty cache dirties it, and repeating it leaves the flag unchanged. -/
theorem insert_dirty_spec_witness :
    (InsertImage emptyCache (str "img1") (str "Ubuntu")).Modified =
      (emptyCache.Modified || !(assocGet emptyCache.Images (str "img1") == some (str "Ubuntu"))) ∧
    (InsertImage (InsertImage emptyCache (str "img1") (str "Ubuntu")) (str "img1")
        (str "Ubuntu")).Modified =
      (InsertImage emptyCache (str "img1") (str "Ubuntu")).Modified :=
  ⟨(insert_dirty_spec emptyCache (str "img1") (str "Ubuntu")).2.1.2,
   (insert_dirty_spec emptyCache (str "img1") (str "Ubuntu")).2.2.2.2 rfl⟩

/-! ## Claim C8: clear operations and their frame -/

/-- C8: `ClearSnapshots` empties only the snapshots collection and
unconditionally dirties the cache; likewise each other category's Clear
empties only its own collection. -/
theorem clear_frame_spec (c : ScalewayCache) :
    (ClearSnapshots c).Snapshots = [] ∧ (ClearSnapshots c).Modified = true ∧
    (ClearSnapshots c).Servers = c.Servers ∧ (ClearSnapshots c).Images = c.Images ∧
    (ClearSnapshots c).Bootscripts = c.Bootscripts ∧
    (ClearServers c).Servers = [] ∧ (ClearServers c).Modified = true ∧
    (ClearServers c).Images = c.Images ∧ (ClearServers c).Snapshots = c.Snapshots ∧
    (ClearServers c).Bootscripts = c.Bootscripts ∧
    (ClearImages c).Images = [] ∧ (ClearImages c).Modified = true ∧
    (ClearImages c).Servers = c.Servers ∧ (ClearImages c).Snapshots = c.Snapshots ∧
    (ClearImages c).Bootscripts = c.Bootscripts ∧
    (ClearBootscripts c).Bootscripts = [] ∧ (ClearBootscripts c).Modified = true ∧
    (ClearBootscripts c).Servers = c.Servers ∧ (ClearBootscripts c).Images = c.Images ∧
    (ClearBootscripts c).Snapshots = c.Snapshots :=
  ⟨rfl, rfl, rfl, rfl, rfl, rfl, rfl, rfl, rfl, rfl,
   rfl, rfl, rfl, rfl, rfl, rfl, rfl, rfl, rfl, rfl⟩

/-! ## Claim C9: Save never resets the dirty flag -/

/-- C9: `Save` leaves the in-memory cache exactly as it was — in particular
the dirty flag and all four collections — and a dirty cache saves
successfully in a failure-free environment yet remains marked dirty. -/
theorem save_frame_spec (c : ScalewayCache) (env : SaveEnv) :
    (Save c env).1 = c ∧
    (c.Modified = true →
      (Save c SaveEnv.allOk).2 = .ok () ∧ (Save c SaveEnv.allOk).1.Modified = true) := by
  constructor
  · unfold Save
    cases hm : c.Modified <;> cases env <;> simp
  · intro h
    unfold Save
    simp [h]

/-- Concrete instance of `save_frame_spec`: a successful save of a dirty
cache leaves it dirty. -/
theorem save_frame_spec_witness :
    (Save { emptyCache with Modified := true } SaveEnv.allOk).2 = .ok () ∧
    (Save { emptyCache with Modified := true } SaveEnv.allOk).1.Modified = true :=
  (save_frame_spec { emptyCache with Modified := true } SaveEnv.allOk).2 rfl

/-! ## Claim C10: the empty needle returns every identifier -/

/-- C10: with the empty string as needle, each of the four lookups returns
every identifier in its collection (the empty string is a literal prefix of
every identifier). -/
theorem lookup_empty_needle_spec (c : ScalewayCache) :
    LookUpServers c (str "") = some (c.Servers.map Prod.fst) ∧
    LookUpImages c (str "") = some (c.Images.map Prod.fst) ∧
    LookUpSnapshots c (str "") = some (c.Snapshots.map Prod.fst) ∧
    LookUpBootscripts c (str "") = some (c.Bootscripts.map Prod.fst) := by
  have hfil : ∀ (l : List (Str × Str)) (q : Str × Str → Bool),
      (l.filter fun e => ([] : Str).isPrefixOf e.1 || q e) = l := by
    intro l q
    have h2 : (l.filter fun e => ([] : Str).isPrefixOf e.1 || q e) =
        l.filter (fun _ => true) := List.filter_congr (fun x _ => by simp [List.isPrefixOf])
    rw [h2, List.filter_true]
  refine ⟨?_, ?_, ?_, ?_⟩
  · have h1 : LookUpServers c (str "") =
        some ((c.Servers.filter fun e =>
          ([] : Str).isPrefixOf e.1 || matchAnywhere [] e.2).map Prod.fst) := rfl
    rw [h1, hfil]
  · have h1 : LookUpImages c (str "") =
        some ((c.Images.filter fun e =>
          ([] : Str).isPrefixOf e.1 || matchAnywhere [] e.2).map Prod.fst) := rfl
    rw [h1, hfil]
  · have h1 : LookUpSnapshots c (str "") =
        some ((c.Snapshots.filter fun e =>
          ([] : Str).isPrefixOf e.1 || matchAnywhere [] e.2).map Prod.fst) := rfl
    rw [h1, hfil]
  · have h1 : LookUpBootscripts c (str "") =
        some ((c.Bootscripts.filter fun e =>
          ([] : Str).isPrefixOf e.1 || matchAnywhere [] e.2).map Prod.fst) := rfl
    rw [h1, hfil]

/-! ## Claim C5: the `user/` prefix strip -/

theorem stripUser_append (s : Str) : stripUser (str "user/" ++ s) = s := by
  have h : (str "user/").isPrefixOf (str "user/" ++ s) = true :=
    List.isPrefixOf_iff_prefix.mpr (List.prefix_append _ _)
  unfold stripUser
  rw [if_pos h, show (5 : Nat) = (str "user/").length from rfl, List.drop_left]

theorem stripUser_of_not_user {s : Str} (h : (str "user/").isPrefixOf s = false) :
    stripUser s = s := by
  unfold stripUser
  rw [if_neg]
  simp [h]

/-- C5 counterexample: one single `user/` prefix is stripped, so for an `s`
that itself starts with `user/` the two lookups of the claim differ: with the
image identifier `user/abc` stored, the needle `user/user/abc` resolves it by
literal prefix after one strip, while the needle `user/abc` is stripped to
`abc` and matches nothing. -/
theorem lookupImages_stripUser_cex :
    LookUpImages { emptyCache with Images := [(str "user/abc", str "x")] }
        (str "user/" ++ str "user/abc") = some [str "user/abc"] ∧
    LookUpImages { emptyCache with Images := [(str "user/abc", str "x")] }
        (str "user/abc") = some [] :=
  ⟨by decide, by decide⟩

/-- C5 (amended): for every needle `s` that does not itself begin with
`user/`, prefixing `user/` changes nothing for the Images and Snapshots
lookups; Servers and Bootscripts do not strip the prefix, witnessed by a
stored identifier `abc` that only the unprefixed needle resolves. -/
theorem lookup_stripUser_spec (c : ScalewayCache) (s : Str)
    (h : (str "user/").isPrefixOf s = false) :
    LookUpImages c (str "user/" ++ s) = LookUpImages c s ∧
    LookUpSnapshots c (str "user/" ++ s) = LookUpSnapshots c s ∧
    LookUpServers { emptyCache with Servers := [(str "abc", str "x")] }
        (str "user/" ++ str "abc") = some [] ∧
    LookUpServers { emptyCache with Servers := [(str "abc", str "x")] }
        (str "abc") = some [str "abc"] ∧
    LookUpBootscripts { emptyCache with Bootscripts := [(str "abc", str "x")] }
        (str "user/" ++ str "abc") = some [] ∧
    LookUpBootscripts { emptyCache with Bootscripts := [(str "abc", str "x")] }
        (str "abc") = some [str "abc"] := by
  have h1 := stripUser_append s
  have h2 := stripUser_of_not_user h
  refine ⟨?_, ?_, by decide, by decide, by decide, by decide⟩
  · unfold LookUpImages
    rw [h1, h2]
  · unfold LookUpSnapshots
    rw [h1, h2]

/-- Concrete instance of `lookup_stripUser_spec` at needle `abc`. -/
theorem lookup_stripUser_spec_witness :
    LookUpImages emptyCache (str "user/" ++ str "abc") = LookUpImages emptyCache (str "abc") :=
  (lookup_stripUser_spec emptyCache (str "abc") (by decide)).1

/-! ## Claim C6: insert-then-lookup round trip -/

/-- C6 counterexample: inserting the identifier `(` and looking it up panics
inside `regexp.MustCompile` (modelled by `none`) instead of returning a
sequence containing the identifier. -/
theorem insert_lookup_server_cex :
    LookUpServers (InsertServer emptyCache (str "(") (str "x")) (str "(") = none := by
  decide

/-- C6 (amended): when the pattern derived from the identifier compiles — in
particular for any identifier free of regexp metacharacters — looking up an
inserted server identifier with the identifier itself as needle succeeds and
the result contains that identifier. -/
theorem insert_lookup_server_spec (c : ScalewayCache) (identifier name : Str)
    (h : (compileNeedle identifier).isSome = true) :
    (LookUpServers (InsertServer c identifier name) identifier).isSome = true ∧
    identifier ∈ (LookUpServers (InsertServer c identifier name) identifier).getD [] := by
  obtain ⟨ps, hps⟩ := Option.isSome_iff_exists.mp h
  have hpre : identifier.isPrefixOf identifier = true :=
    List.isPrefixOf_iff_prefix.mpr (List.prefix_refl _)
  have hmem : (identifier, name) ∈ (InsertServer c identifier name).Servers := by
    by_cases hc : (assocGet c.Servers identifier == some name) = true
    · have hg : assocGet c.Servers identifier = some name := by
        simpa [beq_iff_eq] using hc
      simp only [InsertServer, hc, if_true]
      exact assocGet_some_mem hg
    · simp only [InsertServer, hc, if_false, Bool.false_eq_true]
      exact mem_assocSet_self
  have hlook : LookUpServers (InsertServer c identifier name) identifier =
      some (((InsertServer c identifier name).Servers.filter fun e =>
        identifier.isPrefixOf e.1 || matchAnywhere ps e.2).map Prod.fst) := by
    unfold LookUpServers
    rw [hps]
  rw [hlook]
  refine ⟨rfl, ?_⟩
  simp only [Option.getD_some]
  exact List.mem_map.mpr
    ⟨(identifier, name), List.mem_filter.mpr ⟨hmem, by simp [hpre]⟩, rfl⟩

/-- Concrete instance of `insert_lookup_server_spec`. -/
theorem insert_lookup_server_spec_witness :
    str "srv1" ∈
      (LookUpServers (InsertServer emptyCache (str "srv1") (str "name1"))
        (str "srv1")).getD [] :=
  (insert_lookup_server_spec emptyCache (str "srv1") (str "name1") (by decide)).2

/-! ## Claim C2: totality of the lookups -/

/-- C2 counterexample: the lookup path is not total — the needle `(` makes
`regexp.MustCompile` panic (modelled by `none`) even on an empty cache. -/
theorem lookupServers_panic_cex : LookUpServers emptyCache (str "(") = none := by
  decide

/-! ## Claim C7: the aggregate lookup -/

theorem lookup_result_keys {l : List (Str × Str)} {p : Str × Str → Bool} {i : Str}
    (hi : i ∈ (l.filter p).map Prod.fst) : ∃ e ∈ l, e.1 = i := by
  obtain ⟨e, he, rfl⟩ := List.mem_map.mp hi
  exact ⟨e, List.mem_of_mem_filter he, rfl⟩

theorem lookUpServers_shape {c : ScalewayCache} {needle : Str} {ls : List Str}
    (h : LookUpServers c needle = some ls) :
    ∃ p, ls = (c.Servers.filter p).map Prod.fst := by
  unfold LookUpServers at h
  cases hc : compileNeedle needle with
  | none => rw [hc] at h; cases h
  | some ps =>
      rw [hc] at h
      exact ⟨_, (Option.some.inj h).symm⟩

theorem lookUpImages_shape {c : ScalewayCache} {needle : Str} {li : List Str}
    (h : LookUpImages c needle = some li) :
    ∃ p, li = (c.Images.filter p).map Prod.fst := by
  unfold LookUpImages at h
  cases hc : compileNeedle (stripUser needle) with
  | none => rw [hc] at h; cases h
  | some ps =>
      rw [hc] at h
      exact ⟨_, (Option.some.inj h).symm⟩

theorem lookUpSnapshots_shape {c : ScalewayCache} {needle : Str} {ln : List Str}
    (h : LookUpSnapshots c needle = some ln) :
    ∃ p, ln = (c.Snapshots.filter p).map Prod.fst := by
  unfold LookUpSnapshots at h
  cases hc : compileNeedle (stripUser needle) with
  | none => rw [hc] at h; cases h
  | some ps =>
      rw [hc] at h
      exact ⟨_, (Option.some.inj h).symm⟩

theorem lookUpBootscripts_shape {c : ScalewayCache} {needle : Str} {lb : List Str}
    (h : LookUpBootscripts c needle = some lb) :
    ∃ p, lb = (c.Bootscripts.filter p).map Prod.fst := by
  unfold LookUpBootscripts at h
  cases hc : compileNeedle needle with
  | none => rw [hc] at h; cases h
  | some ps =>
      rw [hc] at h
      exact ⟨_, (Option.some.inj h).symm⟩

theorem filter_beq_of_nodup {l : List Str} {a : Str} (hn : l.Nodup) (ha : a ∈ l) :
    l.filter (fun i => i == a) = [a] := by
  induction l with
  | nil => simp at ha
  | cons e l ih =>
      have hnd := List.nodup_cons.mp hn
      by_cases he : (e == a) = true
      · have hea : e = a := by simpa [beq_iff_eq] using he
        subst hea
        have hz : l.filter (fun i => i == e) = [] := by
          refine List.filter_eq_nil_iff.mpr (fun b hb => ?_)
          simp only [beq_iff_eq]
          intro hbe
          subst hbe
          exact hnd.1 hb
        simp [List.filter_cons, he, hz]
      · have hea : e ≠ a := by simpa [beq_iff_eq] using he
        rw [List.mem_cons] at ha
        rcases ha with ha | ha
        · exact absurd ha.symm hea
        · simp [List.filter_cons, he, ih hnd.2 ha]

/-- C7: `LookUpIdentifiers` is the concatenation of the four single-category
lookups over the same cache state, each identifier tagged with its category
key and with no cross-category deduplication; an identifier present only in
the Bootscripts collection and matched by the needle yields exactly one
aggregate entry, tagged as a bootscript. -/
theorem lookUpIdentifiers_spec (c : ScalewayCache) (needle : Str)
    (ls li ln lb : List Str)
    (hs : LookUpServers c needle = some ls) (hi : LookUpImages c needle = some li)
    (hn : LookUpSnapshots c needle = some ln)
    (hb : LookUpBootscripts c needle = some lb) :
    LookUpIdentifiers c needle = some
      ((ls.map fun i => { Identifier := i, Ty := IdentifierServer }) ++
       (li.map fun i => { Identifier := i, Ty := IdentifierImage }) ++
       (ln.map fun i => { Identifier := i, Ty := IdentifierSnapshot }) ++
       (lb.map fun i => { Identifier := i, Ty := IdentifierBootscript })) ∧
    (∀ identifier, (c.Bootscripts.map Prod.fst).Nodup →
      assocGet c.Servers identifier = none →
      assocGet c.Images identifier = none →
      assocGet c.Snapshots identifier = none →
      identifier ∈ lb →
      ((LookUpIdentifiers c needle).getD []).filter
          (fun e => e.Identifier == identifier) =
        [{ Identifier := identifier, Ty := IdentifierBootscript }]) := by
  have h1 : LookUpIdentifiers c needle = some
      ((ls.map fun i => ({ Identifier := i, Ty := IdentifierServer } : ScalewayIdentifier)) ++
       (li.map fun i => { Identifier := i, Ty := IdentifierImage }) ++
       (ln.map fun i => { Identifier := i, Ty := IdentifierSnapshot }) ++
       (lb.map fun i => { Identifier := i, Ty := IdentifierBootscript })) := by
    unfold LookUpIdentifiers
    rw [hs, hi, hn, hb]
    rfl
  refine ⟨h1, fun identifier hnd hS hI hN hmem => ?_⟩
  rw [h1]
  simp only [Option.getD_some]
  rw [List.filter_append, List.filter_append, List.filter_append]
  have hkill : ∀ (l' : List Str) (t : Nat) (coll : List (Str × Str)),
      (∀ i ∈ l', ∃ e ∈ coll, e.1 = i) → assocGet coll identifier = none →
      (l'.map fun i => ({ Identifier := i, Ty := t } : ScalewayIdentifier)).filter
        (fun e => e.Identifier == identifier) = [] := by
    intro l' t coll hkeys hgone
    refine List.filter_eq_nil_iff.mpr (fun e he => ?_)
    obtain ⟨i, hil, rfl⟩ := List.mem_map.mp he
    simp only [beq_iff_eq]
    intro hid
    obtain ⟨e', he', hke⟩ := hkeys i hil
    exact assocGet_none_not_key hgone e' he' (hke.trans hid)
  have hks : ∀ i ∈ ls, ∃ e ∈ c.Servers, e.1 = i := by
    obtain ⟨p, rfl⟩ := lookUpServers_shape hs
    exact fun i hi2 => lookup_result_keys hi2
  have hki : ∀ i ∈ li, ∃ e ∈ c.Images, e.1 = i := by
    obtain ⟨p, rfl⟩ := lookUpImages_shape hi
    exact fun i hi2 => lookup_result_keys hi2
  have hkn : ∀ i ∈ ln, ∃ e ∈ c.Snapshots, e.1 = i := by
    obtain ⟨p, rfl⟩ := lookUpSnapshots_shape hn
    exact fun i hi2 => lookup_result_keys hi2
  rw [hkill ls IdentifierServer c.Servers hks hS,
    hkill li IdentifierImage c.Images hki hI,
    hkill ln IdentifierSnapshot c.Snapshots hkn hN]
  have hlbnd : lb.Nodup := by
    obtain ⟨p, rfl⟩ := lookUpBootscripts_shape hb
    exact ((List.filter_sublist c.Bootscripts).map Prod.fst).nodup hnd
  have hflt : (lb.map fun i =>
      ({ Identifier := i, Ty := IdentifierBootscript } : ScalewayIdentifier)).filter
        (fun e => e.Identifier == identifier) =
      (lb.filter fun i => i == identifier).map fun i =>
        ({ Identifier := i, Ty := IdentifierBootscript } : ScalewayIdentifier) :=
    List.filter_map _ lb
  rw [hflt, filter_beq_of_nodup hlbnd hmem]
  rfl

/-- Concrete instance of `lookUpIdentifiers_spec`: an identifier stored only
as a bootscript appears exactly once in the aggregate, tagged Bootscript. -/
theorem lookUpIdentifiers_spec_witness :
    ((LookUpIdentifiers { emptyCache with Bootscripts := [(str "boot1", str "rescue")] }
        (str "boot1")).getD []).filter (fun e => e.Identifier == str "boot1") =
      [{ Identifier := str "boot1", Ty := IdentifierBootscript }] :=
  (lookUpIdentifiers_spec { emptyCache with Bootscripts := [(str "boot1", str "rescue")] }
      (str "boot1") [] [] [] [str "boot1"]
      (by decide) (by decide) (by decide) (by decide)).2
    (str "boot1") (by decide) (by decide) (by decide) (by decide) (by decide)

/-! ## The matcher/semantics correspondence -/

theorem nullable_iff (ps : List Atom) : nullable ps = true ↔ PMatch ps [] := by
  induction ps with
  | nil =>
      constructor
      · intro _; exact PMatch.nil
      · intro _; rfl
  | cons a ps ih =>
      cases a with
      | once a =>
          simp only [nullable, Bool.false_eq_true, false_iff]
          intro h
          cases h
      | star a =>
          simp only [nullable]
          rw [ih]
          constructor
          · exact fun h => PMatch.starSkip h
          · intro h
            cases h with
            | starSkip h => exact h

theorem matchH_iff : ∀ (xs : Str) (ps : List Atom),
    matchH xs ps = true ↔ ∃ p q, xs = p ++ q ∧ PMatch ps p := by
  intro xs
  induction xs with
  | nil =>
      intro ps
      simp only [matchH]
      rw [nullable_iff]
      constructor
      · exact fun h => ⟨[], [], rfl, h⟩
      · rintro ⟨p, q, hpq, hm⟩
        have hp : p = [] := by cases p <;> simp_all
        subst hp
        exact hm
  | cons x xs ih =>
      intro ps
      show matchStep (matchH xs) x ps = true ↔ _
      induction ps with
      | nil =>
          simp only [matchStep]
          constructor
          · intro _; exact ⟨[], x :: xs, rfl, PMatch.nil⟩
          · intro _; trivial
      | cons a ps ihp =>
          cases a with
          | once a =>
              simp only [matchStep, Bool.and_eq_true]
              rw [ih ps]
              constructor
              · rintro ⟨ha, p, q, hpq, hm⟩
                exact ⟨x :: p, q, by rw [hpq]; rfl, PMatch.once ha hm⟩
              · rintro ⟨p, q, hpq, hm⟩
                cases hm with
                | once ha hm2 =>
                    rw [List.cons_append] at hpq
                    injection hpq with h1 h2
                    subst h1
                    exact ⟨ha, _, q, h2, hm2⟩
          | star a =>
              simp only [matchStep, Bool.or_eq_true, Bool.and_eq_true]
              rw [ihp, ih (.star a :: ps)]
              constructor
              · rintro (⟨p, q, hpq, hm⟩ | ⟨ha, p, q, hpq, hm⟩)
                · exact ⟨p, q, hpq, PMatch.starSkip hm⟩
                · exact ⟨x :: p, q, by rw [hpq]; rfl, PMatch.starCons ha hm⟩
              · rintro ⟨p, q, hpq, hm⟩
                cases hm with
                | starSkip hm2 => exact Or.inl ⟨p, q, hpq, hm2⟩
                | starCons ha hm2 =>
                    rw [List.cons_append] at hpq
                    injection hpq with h1 h2
                    subst h1
                    exact Or.inr ⟨ha, _, q, h2, hm2⟩

theorem matchAnywhere_iff (ps : List Atom) : ∀ (s : Str),
    matchAnywhere ps s = true ↔
      ∃ pre mid post, s = pre ++ mid ++ post ∧ PMatch ps mid := by
  intro s
  induction s with
  | nil =>
      simp only [matchAnywhere]
      rw [nullable_iff]
      constructor
      · exact fun h => ⟨[], [], [], rfl, h⟩
      · rintro ⟨pre, mid, post, h, hm⟩
        obtain ⟨h12, _⟩ := List.append_eq_nil.mp h.symm
        obtain ⟨h1, h2⟩ := List.append_eq_nil.mp h12
        subst h1
        subst h2
        exact hm
  | cons x xs ih =>
      simp only [matchAnywhere, Bool.or_eq_true]
      rw [matchH_iff, ih]
      constructor
      · rintro (⟨p, q, hpq, hm⟩ | ⟨pre, mid, post, hs, hm⟩)
        · exact ⟨[], p, q, by simpa using hpq, hm⟩
        · exact ⟨x :: pre, mid, post, by rw [hs]; rfl, hm⟩
      · rintro ⟨pre, mid, post, hs, hm⟩
        cases pre with
        | nil =>
            left
            exact ⟨mid, post, by simpa using hs, hm⟩
        | cons y pre =>
            right
            rw [List.cons_append] at hs
            injection hs with h1 h2
            exact ⟨pre, mid, post, h2, hm⟩

theorem pmatch_nil_iff (s : Str) : PMatch [] s ↔ s = [] := by
  constructor
  · intro h
    cases h
    rfl
  · rintro rfl
    exact PMatch.nil

theorem pmatch_once_iff (a : SAtom) (ps : List Atom) (s : Str) :
    PMatch (.once a :: ps) s ↔
      ∃ x s2, s = x :: s2 ∧ atomMatch a x = true ∧ PMatch ps s2 := by
  constructor
  · intro h
    cases h with
    | once ha hm => exact ⟨_, _, rfl, ha, hm⟩
  · rintro ⟨x, s2, rfl, ha, hm⟩
    exact PMatch.once ha hm

theorem pmatch_star_iff (a : SAtom) (ps : List Atom) : ∀ (s : Str),
    PMatch (.star a :: ps) s ↔
      ∃ g s2, s = g ++ s2 ∧ (∀ x ∈ g, atomMatch a x = true) ∧ PMatch ps s2 := by
  intro s
  induction s with
  | nil =>
      constructor
      · intro hm
        cases hm with
        | starSkip h => exact ⟨[], [], rfl, by simp, h⟩
      · rintro ⟨g, s2, hgs, hg, hm⟩
        obtain ⟨h1, h2⟩ := List.append_eq_nil.mp hgs.symm
        subst h1
        subst h2
        exact PMatch.starSkip hm
  | cons x xs ih =>
      constructor
      · intro hm
        cases hm with
        | starSkip h => exact ⟨[], x :: xs, rfl, by simp, h⟩
        | starCons ha hm2 =>
            obtain ⟨g, s2, hgs, hg, hmp⟩ := ih.mp hm2
            refine ⟨x :: g, s2, by rw [List.cons_append, hgs], ?_, hmp⟩
            intro y hy
            rw [List.mem_cons] at hy
            rcases hy with hy | hy
            · subst hy
              exact ha
            · exact hg y hy
      · rintro ⟨g, s2, hgs, hg, hm⟩
        cases g with
        | nil =>
            simp only [List.nil_append] at hgs
            exact hgs ▸ PMatch.starSkip hm
        | cons y g =>
            rw [List.cons_append] at hgs
            injection hgs with h1 h2
            subst h1
            exact PMatch.starCons (hg x (by simp))
              (ih.mpr ⟨g, s2, h2, fun z hz => hg z (by simp [hz]), hm⟩)

theorem pmatch_charAtom : ∀ (n mid : Str),
    PMatch (n.map charAtom) mid ↔ AProp n mid := by
  intro n
  induction n with
  | nil =>
      intro mid
      simp only [List.map_nil, AProp]
      exact pmatch_nil_iff mid
  | cons c n ih =>
      intro mid
      by_cases hc : isSep c = true
      · simp only [List.map_cons, charAtom, hc, if_true, AProp]
        rw [pmatch_star_iff]
        constructor
        · rintro ⟨g, s2, rfl, hg, hm⟩
          exact ⟨g, s2, rfl, hg, (ih s2).mp hm⟩
        · rintro ⟨g, s2, rfl, hg, hm⟩
          exact ⟨g, s2, rfl, hg, (ih s2).mpr hm⟩
      · simp only [List.map_cons, charAtom, hc, if_false, AProp, Bool.false_eq_true]
        rw [pmatch_once_iff]
        constructor
        · rintro ⟨x, s2, rfl, ha, hm⟩
          exact ⟨x, s2, rfl, ha, (ih s2).mp hm⟩
        · rintro ⟨x, s2, rfl, ha, hm⟩
          exact ⟨x, s2, rfl, ha, (ih s2).mpr hm⟩

theorem ciStrEq_length : ∀ (t m : Str), ciStrEq t m = true → t.length = m.length := by
  intro t
  induction t with
  | nil =>
      intro m h
      cases m with
      | nil => rfl
      | cons b m => simp [ciStrEq] at h
  | cons a t ih =>
      intro m h
      cases m with
      | nil => simp [ciStrEq] at h
      | cons b m =>
          simp only [ciStrEq, Bool.and_eq_true] at h
          simp [List.length_cons, ih m h.2]

theorem ciPrefixB_iff : ∀ (t s : Str), ciPrefixB t s = true ↔
    ∃ m r, s = m ++ r ∧ ciStrEq t m = true := by
  intro t
  induction t with
  | nil =>
      intro s
      simp only [ciPrefixB]
      constructor
      · intro _
        exact ⟨[], s, rfl, rfl⟩
      · intro _
        trivial
  | cons a t ih =>
      intro s
      cases s with
      | nil =>
          simp only [ciPrefixB, Bool.false_eq_true, false_iff]
          rintro ⟨m, r, hmr, hci⟩
          cases m with
          | nil => simp [ciStrEq] at hci
          | cons y m => simp at hmr
      | cons b s =>
          simp only [ciPrefixB, Bool.and_eq_true]
          rw [ih s]
          constructor
          · rintro ⟨hab, m, r, rfl, hci⟩
            exact ⟨b :: m, r, rfl, by simp [ciStrEq, hab, hci]⟩
          · rintro ⟨m, r, hmr, hci⟩
            cases m with
            | nil => simp [ciStrEq] at hci
            | cons y m =>
                rw [List.cons_append] at hmr
                injection hmr with h1 h2
                subst h1
                simp only [ciStrEq, Bool.and_eq_true] at hci
                exact ⟨hci.1, m, r, h2, hci.2⟩

theorem mem_splits : ∀ (s : Str) (p : Str × Str), p ∈ splits s ↔ s = p.1 ++ p.2 := by
  intro s
  induction s with
  | nil =>
      intro p
      simp only [splits, List.mem_singleton]
      constructor
      · rintro rfl
        rfl
      · intro h
        obtain ⟨p1, p2⟩ := p
        obtain ⟨h1, h2⟩ := List.append_eq_nil.mp h.symm
        simp only [Prod.mk.injEq]
        exact ⟨h1, h2⟩
  | cons x xs ih =>
      intro p
      simp only [splits, List.mem_cons, List.mem_map]
      constructor
      · rintro (rfl | ⟨q, hq, rfl⟩)
        · rfl
        · have := (ih q).mp hq
          simp [this]
      · intro h
        obtain ⟨p1, p2⟩ := p
        cases p1 with
        | nil =>
            left
            simp only [List.nil_append] at h
            simp [h]
        | cons y p1 =>
            right
            rw [List.cons_append] at h
            injection h with h1 h2
            subst h1
            exact ⟨(p1, p2), (ih _).mpr h2, rfl⟩

theorem aprop_append_run : ∀ (run : Str), (∀ c ∈ run, isSep c = false) →
    ∀ (n mid : Str), AProp (run ++ n) mid ↔
      ∃ m1 m2, mid = m1 ++ m2 ∧ ciStrEq run m1 = true ∧ AProp n m2 := by
  intro run
  induction run with
  | nil =>
      intro _ n mid
      simp only [List.nil_append]
      constructor
      · intro h
        exact ⟨[], mid, rfl, rfl, h⟩
      · rintro ⟨m1, m2, rfl, hci, h⟩
        cases m1 with
        | nil => simpa using h
        | cons y m1 => simp [ciStrEq] at hci
  | cons c run ih =>
      intro hns n mid
      have hc : isSep c = false := hns c (by simp)
      rw [List.cons_append]
      simp only [AProp, hc, if_false, Bool.false_eq_true]
      constructor
      · rintro ⟨x, rest, rfl, hcx, h⟩
        obtain ⟨m1, m2, rfl, hci, h2⟩ :=
          (ih (fun d hd => hns d (by simp [hd])) n rest).mp h
        exact ⟨x :: m1, m2, rfl, by simp [ciStrEq, hcx, hci], h2⟩
      · rintro ⟨m1, m2, rfl, hci, h2⟩
        cases m1 with
        | nil => simp [ciStrEq] at hci
        | cons y m1 =>
            simp only [ciStrEq, Bool.and_eq_true] at hci
            exact ⟨y, m1 ++ m2, by rw [List.cons_append], hci.1,
              (ih (fun d hd => hns d (by simp [hd])) n (m1 ++ m2)).mpr
                ⟨m1, m2, rfl, hci.2, h2⟩⟩

theorem fuzzyGapB_iff : ∀ (ts : List Str) (r : Str),
    fuzzyGapB noNl ts r = true ↔ GPropP ts r := by
  intro ts
  induction ts with
  | nil =>
      intro r
      simp [fuzzyGapB, GPropP]
  | cons t ts ih =>
      intro r
      simp only [fuzzyGapB, GPropP, List.any_eq_true, Bool.and_eq_true]
      constructor
      · rintro ⟨p, hp, ⟨hall, hcip⟩, hrec⟩
        have hps := (mem_splits r p).mp hp
        obtain ⟨m, r2, hmr, hci⟩ := (ciPrefixB_iff t p.2).mp hcip
        have hdrop : p.2.drop t.length = r2 := by
          rw [hmr, ciStrEq_length t m hci]
          exact List.drop_left m r2
        refine ⟨p.1, m, r2, ?_, ?_, hci, (ih r2).mp (by rwa [hdrop] at hrec)⟩
        · rw [hps, hmr]
          exact (List.append_assoc _ _ _).symm
        · exact fun x hx => List.all_eq_true.mp hall x hx
      · rintro ⟨gp, m, r2, rfl, hgp, hci, hrec⟩
        refine ⟨(gp, m ++ r2), (mem_splits _ _).mpr (List.append_assoc _ _ _),
          ⟨?_, ?_⟩, ?_⟩
        · exact List.all_eq_true.mpr hgp
        · exact (ciPrefixB_iff t (m ++ r2)).mpr ⟨m, r2, rfl, hci⟩
        · show fuzzyGapB noNl ts ((m ++ r2).drop t.length) = true
          rw [ciStrEq_length t m hci, List.drop_left]
          exact (ih r2).mpr hrec

theorem fuzzyRunsB_iff : ∀ (ts : List Str) (s : Str),
    fuzzyRunsB noNl ts s = true ↔ RPropP ts s := by
  intro ts s
  cases ts with
  | nil => simp [fuzzyRunsB, RPropP]
  | cons t ts =>
      simp only [fuzzyRunsB, RPropP, List.any_eq_true, Bool.and_eq_true]
      constructor
      · rintro ⟨p, hp, hcip, hrec⟩
        have hps := (mem_splits s p).mp hp
        obtain ⟨m, r2, hmr, hci⟩ := (ciPrefixB_iff t p.2).mp hcip
        have hdrop : p.2.drop t.length = r2 := by
          rw [hmr, ciStrEq_length t m hci]
          exact List.drop_left m r2
        refine ⟨p.1, m, r2, ?_, hci, (fuzzyGapB_iff ts r2).mp (by rwa [hdrop] at hrec)⟩
        rw [hps, hmr]
        exact (List.append_assoc _ _ _).symm
      · rintro ⟨pre, m, r2, rfl, hci, hrec⟩
        refine ⟨(pre, m ++ r2), (mem_splits _ _).mpr (List.append_assoc _ _ _), ?_, ?_⟩
        · exact (ciPrefixB_iff t (m ++ r2)).mpr ⟨m, r2, rfl, hci⟩
        · show fuzzyGapB noNl ts ((m ++ r2).drop t.length) = true
          rw [ciStrEq_length t m hci, List.drop_left]
          exact (fuzzyGapB_iff ts r2).mpr hrec

theorem dropWhile_length_le (p : Char → Bool) : ∀ (l : Str),
    (l.dropWhile p).length ≤ l.length := by
  intro l
  induction l with
  | nil => simp
  | cons x xs ih =>
      rw [List.dropWhile_cons]
      by_cases hp : p x = true
      · rw [if_pos hp]
        exact Nat.le_succ_of_le ih
      · rw [if_neg hp]

theorem dropWhile_head_not (p : Char → Bool) : ∀ (l : Str) (d : Char) (ds : Str),
    l.dropWhile p = d :: ds → p d = false := by
  intro l
  induction l with
  | nil =>
      intro d ds h
      cases h
  | cons x xs ih =>
      intro d ds h
      rw [List.dropWhile_cons] at h
      by_cases hp : p x = true
      · rw [if_pos hp] at h
        exact ih d ds h
      · rw [if_neg hp] at h
        injection h with h1 _
        subst h1
        simpa using hp

theorem takeWhile_mem_true (p : Char → Bool) : ∀ (l : Str) (c : Char),
    c ∈ l.takeWhile p → p c = true := by
  intro l
  induction l with
  | nil =>
      intro c h
      simp at h
  | cons x xs ih =>
      intro c h
      rw [List.takeWhile_cons] at h
      by_cases hp : p x = true
      · rw [if_pos hp] at h
        rw [List.mem_cons] at h
        rcases h with h | h
        · subst h
          exact hp
        · exact ih c h
      · rw [if_neg hp] at h
        simp at h

theorem tokensOfAux_acc : ∀ (s acc : Str), acc ≠ [] →
    tokensOfAux s acc =
      (acc.reverse ++ s.takeWhile (fun c => !isSep c)) ::
        tokensOf (s.dropWhile (fun c => !isSep c)) := by
  intro s
  induction s with
  | nil =>
      intro acc hacc
      have hne : (acc == []) = false := by
        simpa using hacc
      simp [tokensOfAux, tokensOf, hne]
  | cons c s ih =>
      intro acc hacc
      have hne : (acc == []) = false := by
        simpa using hacc
      by_cases hc : isSep c = true
      · have hts : ((fun c => !isSep c) c) = false := by simp [hc]
        simp only [tokensOfAux, hc, if_true, hne, Bool.false_eq_true, if_false,
          List.takeWhile_cons, List.dropWhile_cons, hts]
        simp [tokensOf, tokensOfAux, hc]
      · have hts : ((fun c => !isSep c) c) = true := by simp [hc]
        simp only [tokensOfAux, hc, Bool.false_eq_true, if_false,
          List.takeWhile_cons, List.dropWhile_cons, hts, if_true]
        rw [ih (c :: acc) (by simp)]
        simp

theorem tokensOf_sep {c : Char} (hc : isSep c = true) (s : Str) :
    tokensOf (c :: s) = tokensOf s := by
  simp [tokensOf, tokensOfAux, hc]

theorem tokensOf_run {c : Char} (hc : isSep c = false) (s : Str) :
    tokensOf (c :: s) =
      (c :: s.takeWhile (fun d => !isSep d)) ::
        tokensOf (s.dropWhile (fun d => !isSep d)) := by
  show tokensOfAux (c :: s) [] = _
  simp only [tokensOfAux, hc, Bool.false_eq_true, if_false]
  rw [tokensOfAux_acc s [c] (by simp)]
  simp

theorem aprop_sep_iff {c : Char} (hc : isSep c = true) (n mid : Str) :
    AProp (c :: n) mid ↔
      ∃ g rest, mid = g ++ rest ∧ (∀ x ∈ g, noNl x = true) ∧ AProp n rest := by
  show (if isSep c = true then
      ∃ g rest, mid = g ++ rest ∧ (∀ x ∈ g, noNl x = true) ∧ AProp n rest
    else ∃ x rest, mid = x :: rest ∧ ciEq c x = true ∧ AProp n rest) ↔ _
  rw [if_pos hc]

theorem aprop_run_iff {c : Char} (hc : isSep c = false) (n mid : Str) :
    AProp (c :: n) mid ↔
      ∃ x rest, mid = x :: rest ∧ ciEq c x = true ∧ AProp n rest := by
  show (if isSep c = true then
      ∃ g rest, mid = g ++ rest ∧ (∀ x ∈ g, noNl x = true) ∧ AProp n rest
    else ∃ x rest, mid = x :: rest ∧ ciEq c x = true ∧ AProp n rest) ↔ _
  rw [if_neg (by simp [hc])]

theorem gpropp_cons_iff (t : Str) (ts : List Str) (r : Str) :
    GPropP (t :: ts) r ↔
      ∃ gp m r2, r = gp ++ m ++ r2 ∧ (∀ x ∈ gp, noNl x = true) ∧
        ciStrEq t m = true ∧ GPropP ts r2 := Iff.rfl

theorem rpropp_cons_iff (t : Str) (ts : List Str) (s : Str) :
    RPropP (t :: ts) s ↔
      ∃ pre m r2, s = pre ++ m ++ r2 ∧ ciStrEq t m = true ∧ GPropP ts r2 := Iff.rfl

theorem gap_nil (r : Str) : GapSide [] r ↔ GPropP (tokensOf []) r := by
  constructor
  · intro _
    trivial
  · intro _
    exact ⟨[], [], r, rfl, by simp, rfl⟩

theorem inner_step {rest2 : Str} (r2 : Str)
    (h : rest2 = [] ∨ ∃ d rest3, rest2 = d :: rest3 ∧ isSep d = true ∧
      ∀ r, GapSide rest3 r ↔ GPropP (tokensOf rest3) r) :
    (∃ m2 post, r2 = m2 ++ post ∧ AProp rest2 m2) ↔ GPropP (tokensOf rest2) r2 := by
  rcases h with rfl | ⟨d, rest3, rfl, hd, hrec⟩
  · constructor
    · intro _
      trivial
    · intro _
      exact ⟨[], r2, rfl, rfl⟩
  · rw [tokensOf_sep hd, ← hrec r2]
    unfold GapSide
    constructor
    · rintro ⟨m2, post, rfl, hap⟩
      obtain ⟨g, rest, rfl, hg, ha⟩ := (aprop_sep_iff hd rest3 m2).mp hap
      exact ⟨g, rest, post, rfl, hg, ha⟩
    · rintro ⟨gp, m, post, rfl, hgp, ha⟩
      exact ⟨gp ++ m, post, rfl,
        (aprop_sep_iff hd rest3 (gp ++ m)).mpr ⟨gp, m, rfl, hgp, ha⟩⟩

theorem gap_iff_aux : ∀ (k : Nat) (n r : Str), n.length ≤ k →
    (GapSide n r ↔ GPropP (tokensOf n) r) := by
  intro k
  induction k with
  | zero =>
      intro n r hn
      have hnil : n = [] := List.eq_nil_of_length_eq_zero (Nat.le_zero.mp hn)
      subst hnil
      exact gap_nil r
  | succ k ih =>
      intro n r hn
      cases n with
      | nil => exact gap_nil r
      | cons c s =>
          have hs : s.length ≤ k := Nat.le_of_succ_le_succ (by simpa using hn)
          by_cases hc : isSep c = true
          · rw [tokensOf_sep hc, ← ih s r hs]
            unfold GapSide
            constructor
            · rintro ⟨gp, m, post, rfl, hgp, hap⟩
              obtain ⟨g, rest, rfl, hg, ha⟩ := (aprop_sep_iff hc s m).mp hap
              refine ⟨gp ++ g, rest, post, by simp [List.append_assoc], ?_, ha⟩
              intro x hx
              rw [List.mem_append] at hx
              rcases hx with hx | hx
              · exact hgp x hx
              · exact hg x hx
            · rintro ⟨gp, m, post, rfl, hgp, ha⟩
              exact ⟨gp, m, post, rfl, hgp,
                (aprop_sep_iff hc s m).mpr ⟨[], m, rfl, by simp, ha⟩⟩
          · have hcf : isSep c = false := by simpa using hc
            rw [tokensOf_run hcf, gpropp_cons_iff]
            have hsplit : c :: s =
                (c :: s.takeWhile (fun d => !isSep d)) ++
                  s.dropWhile (fun d => !isSep d) := by
              rw [List.cons_append, List.takeWhile_append_dropWhile]
            have hrun : ∀ d ∈ c :: s.takeWhile (fun d => !isSep d), isSep d = false := by
              intro d hd
              rw [List.mem_cons] at hd
              rcases hd with hd | hd
              · subst hd
                exact hcf
              · simpa using takeWhile_mem_true _ s d hd
            have hinner : ∀ (r2 : Str),
                (∃ m2 post, r2 = m2 ++ post ∧
                  AProp (s.dropWhile (fun d => !isSep d)) m2) ↔
                  GPropP (tokensOf (s.dropWhile (fun d => !isSep d))) r2 := by
              intro r2
              apply inner_step
              cases hdw : s.dropWhile (fun d => !isSep d) with
              | nil => exact Or.inl rfl
              | cons d rest3 =>
                  refine Or.inr ⟨d, rest3, rfl, ?_, ?_⟩
                  · simpa using dropWhile_head_not _ s d rest3 hdw
                  · intro r3
                    apply ih rest3 r3
                    have h1 : rest3.length <
                        (s.dropWhile (fun d => !isSep d)).length := by
                      rw [hdw]
                      exact Nat.lt_succ_self _
                    have h2 := dropWhile_length_le (fun d => !isSep d) s
                    omega
            unfold GapSide
            constructor
            · rintro ⟨gp, m, post, rfl, hgp, hap⟩
              rw [hsplit] at hap
              obtain ⟨m1, m2, rfl, hci, ha2⟩ := (aprop_append_run _ hrun _ m).mp hap
              refine ⟨gp, m1, m2 ++ post, by simp [List.append_assoc], hgp, hci, ?_⟩
              exact (hinner (m2 ++ post)).mp ⟨m2, post, rfl, ha2⟩
            · rintro ⟨gp, m, r2, rfl, hgp, hci, hg2⟩
              obtain ⟨m2, post, rfl, ha2⟩ := (hinner r2).mpr hg2
              refine ⟨gp, m ++ m2, post, by simp [List.append_assoc], hgp, ?_⟩
              rw [hsplit]
              exact (aprop_append_run _ hrun _ _).mpr ⟨m, m2, rfl, hci, ha2⟩

theorem gap_iff (n r : Str) : GapSide n r ↔ GPropP (tokensOf n) r :=
  gap_iff_aux n.length n r (Nat.le_refl _)

theorem top_iff : ∀ (n s : Str), TopSide n s ↔ RPropP (tokensOf n) s := by
  intro n
  induction n with
  | nil =>
      intro s
      constructor
      · intro _
        trivial
      · intro _
        exact ⟨[], [], s, rfl, rfl⟩
  | cons c s ih =>
      intro s0
      by_cases hc : isSep c = true
      · rw [tokensOf_sep hc, ← ih s0]
        unfold TopSide
        constructor
        · rintro ⟨pre, mid, post, rfl, hap⟩
          obtain ⟨g, rest, rfl, hg, ha⟩ := (aprop_sep_iff hc s mid).mp hap
          exact ⟨pre ++ g, rest, post, by simp [List.append_assoc], ha⟩
        · rintro ⟨pre, mid, post, rfl, ha⟩
          exact ⟨pre, mid, post, rfl,
            (aprop_sep_iff hc s mid).mpr ⟨[], mid, rfl, by simp, ha⟩⟩
      · have hcf : isSep c = false := by simpa using hc
        rw [tokensOf_run hcf, rpropp_cons_iff]
        have hsplit : c :: s =
            (c :: s.takeWhile (fun d => !isSep d)) ++
              s.dropWhile (fun d => !isSep d) := by
          rw [List.cons_append, List.takeWhile_append_dropWhile]
        have hrun : ∀ d ∈ c :: s.takeWhile (fun d => !isSep d), isSep d = false := by
          intro d hd
          rw [List.mem_cons] at hd
          rcases hd with hd | hd
          · subst hd
            exact hcf
          · simpa using takeWhile_mem_true _ s d hd
        have hinner : ∀ (r2 : Str),
            (∃ m2 post, r2 = m2 ++ post ∧
              AProp (s.dropWhile (fun d => !isSep d)) m2) ↔
              GPropP (tokensOf (s.dropWhile (fun d => !isSep d))) r2 := by
          intro r2
          apply inner_step
          cases hdw : s.dropWhile (fun d => !isSep d) with
          | nil => exact Or.inl rfl
          | cons d rest3 =>
              refine Or.inr ⟨d, rest3, rfl, ?_, fun r3 => gap_iff rest3 r3⟩
              simpa using dropWhile_head_not _ s d rest3 hdw
        unfold TopSide
        constructor
        · rintro ⟨pre, mid, post, rfl, hap⟩
          rw [hsplit] at hap
          obtain ⟨m1, m2, rfl, hci, ha2⟩ := (aprop_append_run _ hrun _ mid).mp hap
          refine ⟨pre, m1, m2 ++ post, by simp [List.append_assoc], hci, ?_⟩
          exact (hinner (m2 ++ post)).mp ⟨m2, post, rfl, ha2⟩
        · rintro ⟨pre, m, r2, rfl, hci, hg2⟩
          obtain ⟨m2, post, rfl, ha2⟩ := (hinner r2).mpr hg2
          refine ⟨pre, m ++ m2, post, by simp [List.append_assoc], ?_⟩
          rw [hsplit]
          exact (aprop_append_run _ hrun _ _).mpr ⟨m, m2, rfl, hci, ha2⟩

theorem compileAux_safe : ∀ (cs : Str) (acc : List Atom),
    (cs.all fun c => !isMeta c) = true →
    compileAux cs acc = some (acc.reverse ++ cs.map charAtom) := by
  intro cs
  induction cs with
  | nil =>
      intro acc _
      simp [compileAux]
  | cons c cs ih =>
      intro acc hall
      simp only [List.all_cons, Bool.and_eq_true] at hall
      have hcm : isMeta c = false := by simpa using hall.1
      have hdot : (c == '.') = false := by
        cases hb : c == '.' with
        | false => rfl
        | true =>
            exfalso
            have hcd : c = '.' := by simpa [beq_iff_eq] using hb
            subst hcd
            exact absurd hcm (by decide)
      have hstar : (c == '*') = false := by
        cases hb : c == '*' with
        | false => rfl
        | true =>
            exfalso
            have hcd : c = '*' := by simpa [beq_iff_eq] using hb
            subst hcd
            exact absurd hcm (by decide)
      by_cases hc : isSep c = true
      · simp only [compileAux]
        rw [if_pos hc, ih _ hall.2]
        simp [charAtom, hc, List.reverse_cons, List.append_assoc]
      · have hcf : isSep c = false := by simpa using hc
        simp only [compileAux]
        rw [if_neg (by simp [hcf]), if_neg (by simp [hdot]), if_neg (by simp [hstar]),
          if_neg (by simp [hcm]), ih _ hall.2]
        simp [charAtom, hcf, List.reverse_cons, List.append_assoc]

theorem compile_safe {n : Str} (h : SafeNeedle n = true) :
    compileNeedle n = some (n.map charAtom) := by
  have h2 := compileAux_safe n [] h
  simpa [compileNeedle] using h2

theorem safeNeedle_stripUser {n : Str} (h : SafeNeedle n = true) :
    SafeNeedle (stripUser n) = true := by
  have h1 : (n.all fun c => !isMeta c) = true := h
  unfold stripUser
  by_cases hp : (str "user/").isPrefixOf n = true
  · rw [if_pos hp]
    show ((n.drop 5).all fun c => !isMeta c) = true
    refine List.all_eq_true.mpr (fun c hc => ?_)
    exact List.all_eq_true.mp h1 c (List.mem_of_mem_drop hc)
  · rw [if_neg hp]
    exact h

/-- On any needle, the compiled pattern of the needle's characters matches a
name exactly when the spec-side fuzzy predicate with newline-free gaps does. -/
theorem matchAnywhere_eq_specFuzzy (n s : Str) :
    matchAnywhere (n.map charAtom) s = specFuzzy noNl n s := by
  apply boolOfIff
  rw [matchAnywhere_iff]
  show _ ↔ specFuzzy noNl n s = true
  unfold specFuzzy
  rw [fuzzyRunsB_iff, ← top_iff]
  unfold TopSide
  constructor
  · rintro ⟨pre, mid, post, h1, h2⟩
    exact ⟨pre, mid, post, h1, (pmatch_charAtom n mid).mp h2⟩
  · rintro ⟨pre, mid, post, h1, h2⟩
    exact ⟨pre, mid, post, h1, (pmatch_charAtom n mid).mpr h2⟩

theorem lookUpServers_eval (c : ScalewayCache) (needle : Str)
    (h : SafeNeedle needle = true) :
    LookUpServers c needle = some ((c.Servers.filter fun e =>
      needle.isPrefixOf e.1 || specFuzzy noNl needle e.2).map Prod.fst) := by
  unfold LookUpServers
  rw [compile_safe h]
  show some ((c.Servers.filter fun e =>
      needle.isPrefixOf e.1 || matchAnywhere (needle.map charAtom) e.2).map Prod.fst) = _
  have hf : (c.Servers.filter fun e =>
      needle.isPrefixOf e.1 || matchAnywhere (needle.map charAtom) e.2) =
      (c.Servers.filter fun e =>
      needle.isPrefixOf e.1 || specFuzzy noNl needle e.2) :=
    List.filter_congr (fun e _ => by rw [matchAnywhere_eq_specFuzzy])
  rw [hf]

theorem lookUpBootscripts_eval (c : ScalewayCache) (needle : Str)
    (h : SafeNeedle needle = true) :
    LookUpBootscripts c needle = some ((c.Bootscripts.filter fun e =>
      needle.isPrefixOf e.1 || specFuzzy noNl needle e.2).map Prod.fst) := by
  unfold LookUpBootscripts
  rw [compile_safe h]
  show some ((c.Bootscripts.filter fun e =>
      needle.isPrefixOf e.1 || matchAnywhere (needle.map charAtom) e.2).map Prod.fst) = _
  have hf : (c.Bootscripts.filter fun e =>
      needle.isPrefixOf e.1 || matchAnywhere (needle.map charAtom) e.2) =
      (c.Bootscripts.filter fun e =>
      needle.isPrefixOf e.1 || specFuzzy noNl needle e.2) :=
    List.filter_congr (fun e _ => by rw [matchAnywhere_eq_specFuzzy])
  rw [hf]

theorem lookUpImages_eval (c : ScalewayCache) (needle : Str)
    (h : SafeNeedle needle = true) :
    LookUpImages c needle = some ((c.Images.filter fun e =>
      (stripUser needle).isPrefixOf e.1 ||
        specFuzzy noNl (stripUser needle) e.2).map Prod.fst) := by
  unfold LookUpImages
  rw [compile_safe (safeNeedle_stripUser h)]
  show some ((c.Images.filter fun e =>
      (stripUser needle).isPrefixOf e.1 ||
        matchAnywhere ((stripUser needle).map charAtom) e.2).map Prod.fst) = _
  have hf : (c.Images.filter fun e =>
      (stripUser needle).isPrefixOf e.1 ||
        matchAnywhere ((stripUser needle).map charAtom) e.2) =
      (c.Images.filter fun e =>
      (stripUser needle).isPrefixOf e.1 || specFuzzy noNl (stripUser needle) e.2) :=
    List.filter_congr (fun e _ => by rw [matchAnywhere_eq_specFuzzy])
  rw [hf]

theorem lookUpSnapshots_eval (c : ScalewayCache) (needle : Str)
    (h : SafeNeedle needle = true) :
    LookUpSnapshots c needle = some ((c.Snapshots.filter fun e =>
      (stripUser needle).isPrefixOf e.1 ||
        specFuzzy noNl (stripUser needle) e.2).map Prod.fst) := by
  unfold LookUpSnapshots
  rw [compile_safe (safeNeedle_stripUser h)]
  show some ((c.Snapshots.filter fun e =>
      (stripUser needle).isPrefixOf e.1 ||
        matchAnywhere ((stripUser needle).map charAtom) e.2).map Prod.fst) = _
  have hf : (c.Snapshots.filter fun e =>
      (stripUser needle).isPrefixOf e.1 ||
        matchAnywhere ((stripUser needle).map charAtom) e.2) =
      (c.Snapshots.filter fun e =>
      (stripUser needle).isPrefixOf e.1 || specFuzzy noNl (stripUser needle) e.2) :=
    List.filter_congr (fun e _ => by rw [matchAnywhere_eq_specFuzzy])
  rw [hf]

/-! ## Claim C1: the lookup membership condition -/

/-- C1 counterexample, refuting the claim's characterisation as stated: with
the image `zzz ↦ abc` stored, the needle `a.c` — whose only maximal run is
the literal `a.c`, which neither prefixes `zzz` nor occurs in `abc` — still
returns `zzz`, because the run is fed to the regexp engine where `.` is a
wildcard; and with the name `Ubuntu\nFocal` stored, the needle
`ubuntu-focal` satisfies the claim's fuzzy predicate (arbitrary text between
runs) yet returns nothing, because the regexp gap `.*` does not cross a
newline. -/
theorem lookup_fuzzy_cex :
    (LookUpImages { emptyCache with Images := [(str "zzz", str "abc")] }
        (str "a.c") = some [str "zzz"] ∧
      (str "a.c").isPrefixOf (str "zzz") = false ∧
      specFuzzy anyChar (str "a.c") (str "abc") = false) ∧
    (LookUpImages { emptyCache with Images := [(str "img1", str "Ubuntu\nFocal")] }
        (str "ubuntu-focal") = some [] ∧
      specFuzzy anyChar (str "ubuntu-focal") (str "Ubuntu\nFocal") = true) :=
  ⟨⟨by decide, by decide, by decide⟩, by decide, by decide⟩

/-- C1 (amended): for every needle free of regexp metacharacters, each
category's lookup returns exactly the identifiers whose entry satisfies
"identifier has the (category-stripped) needle as a literal prefix, or the
stored name matches the case-insensitive fuzzy predicate": the needle's
maximal `_`/`-`-separated runs occur in order in the name, with arbitrary
text before the first and after the last run and newline-free text between
consecutive runs. -/
theorem lookup_fuzzy_spec (c : ScalewayCache) (needle : Str)
    (h : SafeNeedle needle = true) :
    LookUpServers c needle = some ((c.Servers.filter fun e =>
      needle.isPrefixOf e.1 || specFuzzy noNl needle e.2).map Prod.fst) ∧
    LookUpImages c needle = some ((c.Images.filter fun e =>
      (stripUser needle).isPrefixOf e.1 ||
        specFuzzy noNl (stripUser needle) e.2).map Prod.fst) ∧
    LookUpSnapshots c needle = some ((c.Snapshots.filter fun e =>
      (stripUser needle).isPrefixOf e.1 ||
        specFuzzy noNl (stripUser needle) e.2).map Prod.fst) ∧
    LookUpBootscripts c needle = some ((c.Bootscripts.filter fun e =>
      needle.isPrefixOf e.1 || specFuzzy noNl needle e.2).map Prod.fst) :=
  ⟨lookUpServers_eval c needle h, lookUpImages_eval c needle h,
   lookUpSnapshots_eval c needle h, lookUpBootscripts_eval c needle h⟩

/-- Concrete instance of `lookup_fuzzy_spec`: the fuzzy needle
`ubuntu-focal` resolves the image named `Ubuntu Focal LTS`. -/
theorem lookup_fuzzy_spec_witness :
    LookUpImages { emptyCache with Images := [(str "img1", str "Ubuntu Focal LTS")] }
      (str "ubuntu-focal") = some [str "img1"] :=
  ((lookup_fuzzy_spec { emptyCache with Images := [(str "img1", str "Ubuntu Focal LTS")] }
      (str "ubuntu-focal") (by decide)).2.1).trans (by decide)

/-! ## Claim C2: totality and the empty-result contract -/

/-- C2 (amended): whenever the derived pattern compiles — in particular for
every needle free of regexp metacharacters — all four lookups return a
sequence (no error outcome), and the empty sequence is returned exactly when
no entry matches; needles whose derived pattern is an invalid regexp instead
panic (`lookupServers_panic_cex`). -/
theorem lookup_total_spec (c : ScalewayCache) (needle : Str)
    (h : SafeNeedle needle = true) :
    (LookUpServers c needle).isSome = true ∧
    (LookUpImages c needle).isSome = true ∧
    (LookUpSnapshots c needle).isSome = true ∧
    (LookUpBootscripts c needle).isSome = true ∧
    (LookUpServers c needle = some [] ↔
      ∀ e ∈ c.Servers,
        (needle.isPrefixOf e.1 || specFuzzy noNl needle e.2) = false) := by
  refine ⟨by rw [lookUpServers_eval c needle h]; rfl,
    by rw [lookUpImages_eval c needle h]; rfl,
    by rw [lookUpSnapshots_eval c needle h]; rfl,
    by rw [lookUpBootscripts_eval c needle h]; rfl, ?_⟩
  rw [lookUpServers_eval c needle h]
  constructor
  · intro he
    have hfil : (c.Servers.filter fun e =>
        needle.isPrefixOf e.1 || specFuzzy noNl needle e.2) = [] :=
      List.map_eq_nil_iff.mp (Option.some.inj he)
    intro e he2
    have h3 := List.filter_eq_nil_iff.mp hfil e he2
    cases hb : (needle.isPrefixOf e.1 || specFuzzy noNl needle e.2) with
    | false => rfl
    | true => exact absurd hb h3
  · intro hall
    have hfil : (c.Servers.filter fun e =>
        needle.isPrefixOf e.1 || specFuzzy noNl needle e.2) = [] :=
      List.filter_eq_nil_iff.mpr (fun e he => by simp [hall e he])
    rw [hfil]
    rfl

/-- Concrete instance of `lookup_total_spec`: a miss is an empty sequence,
not an error. -/
theorem lookup_total_spec_witness :
    LookUpServers { emptyCache with Servers := [(str "srv1", str "web")] }
      (str "zzz") = some [] :=
  ((lookup_total_spec { emptyCache with Servers := [(str "srv1", str "web")] }
      (str "zzz") (by decide)).2.2.2.2).mpr (by decide)
